import Mathlib

/-!
# Verification of the BSI-Grundschutz OSCAL enrichment pipeline

A shallow embedding, in Lean, of the core algorithms of the repository's
batch-enrichment scripts, together with proofs (and refutations) of the
spec's claims about them:

* the token-bounded batcher (`create_batches` in `src/translate_oscal/main.py`
  and `create_control_batches` in `src/add-practice/main.py`);
* the merge operations (`src/add-practice/main.py` props merge,
  `src/quality_control/main.py` suggested-controls append);
* the retry loops (`generate_with_retry` in `src/add-practice/gemini_utils.py`,
  the attempt loop of `translate_batch` in `src/translate_oscal/main.py`,
  the attempt loop of `process_single_blob_for_stub` in `src/g2r_oscal/main.py`);
* the deduplication / progress-seeding / rehydration steps of
  `src/translate_oscal/main.py`'s `main`;
* the path-string extraction and reintegration of
  `src/translate_oscal/main.py` (`extract_translatable_texts`,
  `reintegrate_translations`);
* the exit-code behaviour of the orchestrators; and
* the counting-semaphore concurrency gate.

Python dicts are modelled as association lists, mutation as functional
update, the generative-model service as an oracle (a function from attempt
index to outcome), and `asyncio` interleaving as a small-step transition
system.
-/

namespace BsiOscal

/-! ## Batcher

`create_batches` (src/translate_oscal/main.py, lines 237-273) and
`create_control_batches` (src/add-practice/main.py, lines 57-84) are the
same greedy scan, differing only in the token estimator, the per-batch
prompt overhead and the limit.  We embed the scan once, parameterised by
the estimator `est`, the `overhead` and the `limit`.

Python loop body, faithfully:
```
if (current_tokens + item_tokens + prompt_overhead_tokens) > TOKEN_LIMIT and current_batch:
    batches.append(current_batch); current_batch = []; current_tokens = 0
current_batch.append(item); current_tokens += item_tokens
```
and after the loop `if current_batch: batches.append(current_batch)`.
-/

/-- The recursive worker of `create_batches`: `cur` is `current_batch`,
`tok` is `current_tokens`, and the returned list is the sequence of
batches still to be emitted (the closed `cur` first). -/
def createBatchesGo (est : α → Nat) (overhead limit : Nat) :
    List α → List α → Nat → List (List α)
  | [], cur, _ => if cur.isEmpty then [] else [cur]
  | item :: rest, cur, tok =>
    if tok + est item + overhead > limit ∧ ¬ cur.isEmpty then
      cur :: createBatchesGo est overhead limit rest [item] (est item)
    else
      createBatchesGo est overhead limit rest (cur ++ [item]) (tok + est item)

/-- `create_batches` / `create_control_batches`: greedy token-bounded
grouping of `items` into batches. -/
def create_batches (est : α → Nat) (overhead limit : Nat) (items : List α) :
    List (List α) :=
  createBatchesGo est overhead limit items [] 0

/-- Token estimator of `create_batches` in src/translate_oscal/main.py:
`len(item["original_text"]) // 3`. -/
def translateTokenEstimate (originalText : String) : Nat :=
  originalText.length / 3

/-- src/translate_oscal/main.py constants: `prompt_overhead_tokens = 200`,
`TOKEN_LIMIT_PER_BATCH = 4000`. -/
def TRANSLATE_PROMPT_OVERHEAD : Nat := 200

def TOKEN_LIMIT_PER_BATCH : Nat := 4000

/-- Concatenating the produced batches, in order, gives back `cur ++ items`:
the scan neither drops nor reorders items. -/
theorem createBatchesGo_flatten (est : α → Nat) (o l : Nat) :
    ∀ (items cur : List α) (tok : Nat),
      (createBatchesGo est o l items cur tok).flatten = cur ++ items := by
  intro items
  induction items with
  | nil =>
    intro cur tok
    by_cases h : cur.isEmpty <;>
      simp_all [createBatchesGo, List.isEmpty_iff]
  | cons item rest ih =>
    intro cur tok
    by_cases h : tok + est item + o > l ∧ ¬ cur.isEmpty
    · simp only [createBatchesGo, if_pos h, List.flatten_cons, ih]
      simp
    · simp only [createBatchesGo, if_neg h, ih]
      simp

/-- No produced batch is empty. -/
theorem createBatchesGo_ne_nil (est : α → Nat) (o l : Nat) :
    ∀ (items cur : List α) (tok : Nat),
      ∀ b ∈ createBatchesGo est o l items cur tok, b ≠ [] := by
  intro items
  induction items with
  | nil =>
    intro cur tok b hb
    by_cases h : cur.isEmpty <;>
      simp_all [createBatchesGo, List.isEmpty_iff]
  | cons item rest ih =>
    intro cur tok b hb
    by_cases h : tok + est item + o > l ∧ ¬ cur.isEmpty
    · simp only [createBatchesGo, if_pos h, List.mem_cons] at hb
      rcases hb with rfl | hb
      · simpa [List.isEmpty_iff] using h.2
      · exact ih [item] (est item) b hb
    · simp only [createBatchesGo, if_neg h] at hb
      exact ih (cur ++ [item]) (tok + est item) b hb

/-- Every produced batch either respects the token budget (estimated sum
plus the per-batch prompt overhead is within the limit) or is a singleton:
the invariant of the greedy scan, given that `tok` tracks the estimated sum
of the current batch and the current batch itself satisfies the invariant. -/
theorem createBatchesGo_bounded (est : α → Nat) (o l : Nat) :
    ∀ (items cur : List α) (tok : Nat),
      tok = (cur.map est).sum →
      ((cur.map est).sum + o ≤ l ∨ cur.length ≤ 1) →
      ∀ b ∈ createBatchesGo est o l items cur tok,
        (b.map est).sum + o ≤ l ∨ b.length = 1 := by
  intro items
  induction items with
  | nil =>
    intro cur tok htok hcur b hb
    by_cases h : cur.isEmpty
    · simp [createBatchesGo, h] at hb
    · simp only [createBatchesGo, if_neg h, List.mem_singleton] at hb
      subst hb
      rcases hcur with h1 | h1
      · exact Or.inl h1
      · refine Or.inr ?_
        rcases b with _ | ⟨x, ys⟩
        · simp [List.isEmpty_iff] at h
        · cases ys
          · rfl
          · simp at h1
  | cons item rest ih =>
    intro cur tok htok hcur b hb
    by_cases h : tok + est item + o > l ∧ ¬ cur.isEmpty
    · simp only [createBatchesGo, if_pos h, List.mem_cons] at hb
      rcases hb with rfl | hb
      · rcases hcur with h1 | h1
        · exact Or.inl h1
        · refine Or.inr ?_
          rcases b with _ | ⟨x, ys⟩
          · simp [List.isEmpty_iff] at h
          · cases ys
            · rfl
            · simp at h1
      · exact ih [item] (est item) (by simp) (by simp) b hb
    · simp only [createBatchesGo, if_neg h] at hb
      rcases Decidable.not_and_iff_or_not.mp h with h1 | h1
      · refine ih (cur ++ [item]) (tok + est item) (by simp [htok]) ?_ b hb
        refine Or.inl ?_
        have := Nat.le_of_not_lt h1
        simp only [List.map_append, List.sum_append, List.map_cons,
          List.map_nil, List.sum_cons, List.sum_nil]
        omega
      · have hcurnil : cur = [] := by
          simpa [List.isEmpty_iff] using Decidable.not_not.mp h1
        subst hcurnil
        refine ih [item] (tok + est item) ?_ (by simp) b hb
        simp at htok
        simp [htok]

/-- Claim C4: `create_batches` / `create_control_batches`: empty input
yields no batches; no produced batch is empty; concatenating the batches
in order reproduces the input exactly; every batch's estimated token sum
plus the per-batch overhead is within the limit unless the batch is a
singleton; and an item whose own estimate (plus overhead) exceeds the
limit always ends up alone in its own singleton batch. -/
theorem create_batches_spec (est : α → Nat) (o l : Nat) (items : List α) :
    create_batches est o l ([] : List α) = [] ∧
    (∀ b ∈ create_batches est o l items, b ≠ []) ∧
    (create_batches est o l items).flatten = items ∧
    (∀ b ∈ create_batches est o l items, (b.map est).sum + o ≤ l ∨ b.length = 1) ∧
    (∀ a ∈ items, est a + o > l → [a] ∈ create_batches est o l items) := by
  refine ⟨rfl, ?_, ?_, ?_, ?_⟩
  · exact fun b hb => createBatchesGo_ne_nil est o l items [] 0 b hb
  · simpa using createBatchesGo_flatten est o l items [] 0
  · exact fun b hb =>
      createBatchesGo_bounded est o l items [] 0 (by simp) (by simp) b hb
  · intro a ha hover
    have hflat : (create_batches est o l items).flatten = items := by
      simpa using createBatchesGo_flatten est o l items [] 0
    rw [← hflat] at ha
    rcases List.mem_flatten.mp ha with ⟨b, hb, hab⟩
    have hbound := createBatchesGo_bounded est o l items [] 0 (by simp) (by simp) b hb
    have hone : b.length = 1 := by
      rcases hbound with h1 | h1
      · exfalso
        have : est a ≤ (b.map est).sum :=
          List.single_le_sum (by simp) _ (List.mem_map_of_mem est hab)
        omega
      · exact h1
    rcases List.length_eq_one.mp hone with ⟨x, rfl⟩
    simp only [List.mem_singleton] at hab
    subst hab
    exact hb

/-- Witness for C4 at a concrete input: with the identity estimator,
overhead 2 and limit 4, the oversized item `3` of `[1, 3, 1]` forms its
own singleton batch. -/
theorem create_batches_spec_witness :
    (3 : Nat) ∈ [1, 3, 1] ∧ (3 : Nat) + 2 > 4 ∧
      [3] ∈ create_batches (fun n : Nat => n) 2 4 [1, 3, 1] :=
  ⟨by decide, by decide,
    (create_batches_spec (fun n : Nat => n) 2 4 [1, 3, 1]).2.2.2.2 3
      (by decide) (by decide)⟩

/-! ## Merge operations

src/add-practice/main.py (lines 119-156) merges the generated data for a
control by overwriting `control["class"]`, removing every existing prop
whose name is one of the four managed names, and appending the four fresh
props.  src/quality_control/main.py `process_control` (lines 256-276)
merges by overwriting `part["prose_qs"]` (a field merge) and by appending
the AI-suggested new controls to `target_baustein["controls"]` — with no
removal of matching existing entries first.
-/

/-- An OSCAL prop entry (`{"name": ..., "value": ..., "ns": ...}`). -/
structure OscalProp where
  name : String
  value : String
  ns : String
deriving DecidableEq, Repr

/-- A Control node, with the fields the add-practice merge touches
(`class` is spelled `class_` because `class` is a Lean keyword). -/
structure Control where
  id : String
  title : String
  class_ : String
  props : List OscalProp
deriving DecidableEq, Repr

/-- The validated per-control result payload of the practice generator
(src/add-practice: `generated_data`). -/
structure GeneratedData where
  class_ : String
  practice : String
  effective_on_c : Bool
  effective_on_i : Bool
  effective_on_a : Bool
deriving DecidableEq, Repr

/-- src/add-practice/main.py line 120: `props_ns`. -/
def props_ns : String := "https://www.bsi.bund.de/ns/grundschutz"

/-- src/add-practice/main.py line 121: `props_to_manage`. -/
def props_to_manage : List String :=
  ["practice", "effective_on_c", "effective_on_i", "effective_on_a"]

/-- Python `str(b).lower()` on a bool. -/
def pyBoolLower (b : Bool) : String := if b then "true" else "false"

/-- The four props appended by the add-practice merge
(src/add-practice/main.py lines 135-156). -/
def newManagedProps (g : GeneratedData) : List OscalProp :=
  [⟨"practice", g.practice, props_ns⟩,
   ⟨"effective_on_c", pyBoolLower g.effective_on_c, props_ns⟩,
   ⟨"effective_on_i", pyBoolLower g.effective_on_i, props_ns⟩,
   ⟨"effective_on_a", pyBoolLower g.effective_on_a, props_ns⟩]

/-- The add-practice merge of one control (src/add-practice/main.py
lines 123-156): set `class`, drop the managed props, append the new
ones. -/
def apply_generated_data (c : Control) (g : GeneratedData) : Control :=
  { c with
    class_ := g.class_
    props := c.props.filter (fun p => !(props_to_manage.contains p.name))
               ++ newManagedProps g }

/-- A prose part of a control, with the optional `prose_qs` field the
quality-control merge writes (absent field modelled as `none`). -/
structure ProsePart where
  id : String
  name : String
  prose : String
  prose_qs : Option String
deriving DecidableEq, Repr

/-- The quality-control field merge (src/quality_control/main.py line 267:
`part["prose_qs"] = item["prose_qs"]`). -/
def set_prose_qs (p : ProsePart) (v : String) : ProsePart :=
  { p with prose_qs := some v }

/-- A Baustein group node; `controls` is `none` when the `"controls"` key
is absent from the dict. -/
structure Baustein where
  id : String
  title : String
  class_ : String
  controls : Option (List Control)
deriving DecidableEq, Repr

/-- The quality-control append merge (src/quality_control/main.py lines
269-275): ensure `"controls"` exists, then append every suggested new
control — with no removal of matching existing entries. -/
def add_suggested_controls (b : Baustein) (newControls : List Control) :
    Baustein :=
  { b with controls := some (b.controls.getD [] ++ newControls) }

/-- Filtering the freshly appended managed props away again empties them:
each of their names is in `props_to_manage`. -/
theorem filter_newManagedProps (g : GeneratedData) :
    (newManagedProps g).filter
      (fun p => !(props_to_manage.contains p.name)) = [] := rfl

/-- Counterexample to claim C1 as stated: the append-merge of AI-suggested
new controls in quality_control's `process_control` is a plain append;
running it twice with the identical validated payload duplicates the
entry, so the merge is not idempotent. -/
theorem add_suggested_controls_not_idempotent :
    add_suggested_controls
        (add_suggested_controls ⟨"SYS.1.1", "Server", "baustein", some []⟩
          [⟨"SYS.1.1.A99", "New", "technical", []⟩])
        [⟨"SYS.1.1.A99", "New", "technical", []⟩]
      ≠ add_suggested_controls ⟨"SYS.1.1", "Server", "baustein", some []⟩
          [⟨"SYS.1.1.A99", "New", "technical", []⟩] := by
  decide

/-- Claim C1, amended: the add-practice merge (overwrite `class`, remove
managed props by name, append the new set) and the quality-control
`prose_qs` field merge are idempotent — running either twice with the
identical input yields the state of running it once; the suggested-new-
controls append of quality_control is excluded (it duplicates, see the
counterexample). -/
theorem merge_operations_idempotent (c : Control) (g : GeneratedData)
    (p : ProsePart) (v : String) :
    apply_generated_data (apply_generated_data c g) g
        = apply_generated_data c g ∧
    set_prose_qs (set_prose_qs p v) v = set_prose_qs p v := by
  constructor
  · simp only [apply_generated_data]
    simp [List.filter_append, filter_newManagedProps, List.filter_filter]
    intro a ha
    simp only [newManagedProps, List.mem_cons, List.not_mem_nil, or_false] at ha
    rcases ha with rfl | rfl | rfl | rfl <;> simp [props_to_manage]
  · rfl

/-! ## Retry loops

Each attempt loop is embedded as a function of an oracle
`out : Nat → outcome` giving the generation service's behaviour at each
attempt index, and returns the final result together with the number of
attempts actually made and the list of backoff sleeps performed (so that
short-circuiting and backoff schedules are observable). -/

/-- Outcome of one attempt of `generate_with_retry`
(src/add-practice/gemini_utils.py lines 57-98). -/
inductive GenAttempt where
  /-- finish reason `OK` and the response text parses as JSON. -/
  | success (v : String)
  /-- finish reason `SAFETY` or `RECITATION`: permanent block. -/
  | blocked
  /-- no candidates, another non-OK finish reason, or a JSON decode
  failure: raised as `ValueError`/`JSONDecodeError`, retryable. -/
  | malformed
  /-- any other exception: retryable. -/
  | unexpected
deriving DecidableEq, Repr

/-- src/add-practice/gemini_utils.py line 22: `RETRY_ATTEMPTS = 5`. -/
def RETRY_ATTEMPTS : Nat := 5

/-- Result of a retry loop: the value (if any), the number of attempts
made, and the sleeps performed (in seconds, in order). -/
structure RetryTrace where
  result : Option String
  attemptsMade : Nat
  sleeps : List Nat
deriving DecidableEq, Repr

/-- The attempt loop of `generate_with_retry`: `attempt` is the current
index, the second argument the number of attempts still allowed.  On
`blocked` it returns `None` at once; on a retryable failure it returns
`None` without sleeping when this was the last attempt, else sleeps
`2 ** attempt` and continues. -/
def generateWithRetryGo (out : Nat → GenAttempt) (attempt : Nat) :
    Nat → RetryTrace
  | 0 => ⟨none, 0, []⟩
  | remaining + 1 =>
    match out attempt with
    | .success v => ⟨some v, 1, []⟩
    | .blocked => ⟨none, 1, []⟩
    | .malformed | .unexpected =>
      if remaining = 0 then ⟨none, 1, []⟩
      else
        let t := generateWithRetryGo out (attempt + 1) remaining
        ⟨t.result, t.attemptsMade + 1, 2 ^ attempt :: t.sleeps⟩

/-- `generate_with_retry` of src/add-practice/gemini_utils.py, as a
function of the per-attempt outcome oracle. -/
def generate_with_retry (out : Nat → GenAttempt) : RetryTrace :=
  generateWithRetryGo out 0 RETRY_ATTEMPTS

/-- Outcome of one attempt of `translate_batch`'s loop
(src/translate_oscal/main.py lines 323-397). -/
inductive TBAttempt where
  /-- candidates present, finish reason `STOP`, response parses as JSON:
  the batch is updated and the loop returns `True`. -/
  | stopValid
  /-- no candidates or non-STOP finish reason — including safety blocks
  and `RECITATION`: sleep `2 ** attempt`, continue. -/
  | blockedOrNonStop
  /-- response text is not valid JSON: sleep 1, continue. -/
  | invalidJson
  /-- `ResourceExhausted` (quota): sleep
  `max(REQUEST_DELAY_SECONDS * 2, 2 ** attempt)`, continue. -/
  | resourceExhausted
  /-- any other exception: same backoff as `resourceExhausted`. -/
  | otherError
deriving DecidableEq, Repr

/-- src/translate_oscal/main.py line 112: `MAX_TRANSLATION_RETRIES = 5`. -/
def MAX_TRANSLATION_RETRIES : Nat := 5

/-- src/translate_oscal/main.py lines 118-119:
`GEMINI_QPM_LIMIT = 10`, `REQUEST_DELAY_SECONDS = 60 / GEMINI_QPM_LIMIT`
(exactly 6 seconds). -/
def REQUEST_DELAY_SECONDS : Nat := 60 / 10

/-- The backoff used by `translate_batch` for transient errors
(src/translate_oscal/main.py lines 389 and 393):
`max(REQUEST_DELAY_SECONDS * 2, 2 ** attempt)` — no jitter. -/
def translateBatchWait (attempt : Nat) : Nat :=
  max (REQUEST_DELAY_SECONDS * 2) (2 ^ attempt)

/-- The attempt loop of `translate_batch`: result flag (`True` iff the
batch succeeded), attempts made, sleeps performed.  Every failing attempt
sleeps, including the last one (the Python loop sleeps and `continue`s,
then falls out of `range`). -/
def translateBatchGo (out : Nat → TBAttempt) (attempt : Nat) :
    Nat → Bool × Nat × List Nat
  | 0 => (false, 0, [])
  | remaining + 1 =>
    match out attempt with
    | .stopValid => (true, 1, [])
    | .blockedOrNonStop =>
      let t := translateBatchGo out (attempt + 1) remaining
      (t.1, t.2.1 + 1, 2 ^ attempt :: t.2.2)
    | .invalidJson =>
      let t := translateBatchGo out (attempt + 1) remaining
      (t.1, t.2.1 + 1, 1 :: t.2.2)
    | .resourceExhausted | .otherError =>
      let t := translateBatchGo out (attempt + 1) remaining
      (t.1, t.2.1 + 1, translateBatchWait attempt :: t.2.2)

/-- The retry loop of `translate_batch`, as a function of the per-attempt
outcome oracle. -/
def translate_batch_retry (out : Nat → TBAttempt) : Bool × Nat × List Nat :=
  translateBatchGo out 0 MAX_TRANSLATION_RETRIES

/-- Counterexample to claim C3 as stated: in `translate_batch`
(src/translate_oscal/main.py lines 331-349), a permanently blocked
response (safety block / `RECITATION`, i.e. a non-STOP finish reason) is
retried like any other failure: with every attempt blocked, all 5
configured attempts are consumed and a backoff sleep happens after each,
instead of aborting after exactly one attempt with no sleep. -/
theorem translate_batch_retries_blocked :
    translate_batch_retry (fun _ => .blockedOrNonStop)
        = (false, 5, [1, 2, 4, 8, 16]) ∧
      (5 : Nat) ≠ 1 := by
  constructor
  · rfl
  · decide

/-- Claim C3, amended: in add-practice's `generate_with_retry`, a
permanent `SAFETY`/`RECITATION` block aborts immediately — exactly one
attempt is made, no backoff sleep occurs and no further attempt is
consumed — whereas retryable failures do consume further attempts; in
translate_oscal's `translate_batch` a blocked response is retried like
any other failure (see the counterexample). -/
theorem generate_with_retry_blocked_short_circuits (out : Nat → GenAttempt)
    (h : out 0 = .blocked) :
    generate_with_retry out = ⟨none, 1, []⟩ := by
  simp [generate_with_retry, RETRY_ATTEMPTS, generateWithRetryGo, h]

/-- Witness for the amended C3: the all-blocked oracle makes exactly one
attempt and never sleeps. -/
theorem generate_with_retry_blocked_witness :
    generate_with_retry (fun _ => .blocked) = ⟨none, 1, []⟩ :=
  generate_with_retry_blocked_short_circuits (fun _ => .blocked) rfl

/-- Outcome of one attempt of `process_single_blob_for_stub`
(src/g2r_oscal/main.py lines 106-144). -/
inductive BlobAttempt where
  /-- finish reason STOP, non-empty text, JSON parses, schema validates. -/
  | success
  /-- `ResourceExhausted`, `InternalServerError`, `ServiceUnavailable`,
  `ValueError`, `JSONDecodeError` or `ValidationError`: retryable. -/
  | retryable
  /-- any other exception: the function returns `None` at once. -/
  | unexpectedFatal
deriving DecidableEq, Repr

/-- src/g2r_oscal/main.py lines 38-40: `MAX_RETRIES = 5`,
`INITIAL_BACKOFF_BASE_SECONDS = 5`, `JITTER_FACTOR = 0.5`. -/
def G2R_MAX_RETRIES : Nat := 5

def INITIAL_BACKOFF_BASE_SECONDS : Nat := 5

/-- The pre-jitter backoff of `process_single_blob_for_stub`
(src/g2r_oscal/main.py line 139):
`base_delay = INITIAL_BACKOFF_BASE_SECONDS * (2 ** attempt)`. -/
def g2rBaseDelay (attempt : Nat) : Nat :=
  INITIAL_BACKOFF_BASE_SECONDS * 2 ^ attempt

/-- The attempt loop of `process_single_blob_for_stub`: the sleeps are
`base_delay + random.uniform(0, base_delay * JITTER_FACTOR)`, modelled as
`g2rBaseDelay attempt + jitter attempt` for an arbitrary jitter function
(rationals, to carry the fractional jitter exactly).  A retryable failure
on the last attempt returns `None` without sleeping; an unexpected
exception returns `None` immediately. -/
def processBlobGo (out : Nat → BlobAttempt) (jitter : Nat → ℚ)
    (attempt : Nat) : Nat → Bool × Nat × List ℚ
  | 0 => (false, 0, [])
  | remaining + 1 =>
    match out attempt with
    | .success => (true, 1, [])
    | .unexpectedFatal => (false, 1, [])
    | .retryable =>
      if remaining = 0 then (false, 1, [])
      else
        let t := processBlobGo out jitter (attempt + 1) remaining
        (t.1, t.2.1 + 1, ((g2rBaseDelay attempt : ℚ) + jitter attempt) :: t.2.2)

/-- The retry loop of `process_single_blob_for_stub`, as a function of
the per-attempt outcome oracle and the drawn jitter values. -/
def process_single_blob_retry (out : Nat → BlobAttempt) (jitter : Nat → ℚ) :
    Bool × Nat × List ℚ :=
  processBlobGo out jitter 0 G2R_MAX_RETRIES

/-- Counterexample to claim C7 as stated: `translate_batch`'s transient
backoff `max(REQUEST_DELAY_SECONDS * 2, 2 ** attempt)` is not strictly
increasing across successive attempt indices — with every attempt hitting
quota exhaustion the sleep sequence is `[12, 12, 12, 12, 16]` (and the
code adds no jitter, so this is the pre-jitter value). -/
theorem translate_batch_backoff_not_strictly_increasing :
    translate_batch_retry (fun _ => .resourceExhausted)
        = (false, 5, [12, 12, 12, 12, 16]) ∧
      translateBatchWait 0 = translateBatchWait 1 := by
  constructor
  · rfl
  · rfl

/-- Claim C7, amended: in g2r_oscal's `process_single_blob_for_stub`,
transient service errors are retried up to the configured 5 attempts,
with a sleep of `base + jitter` before each subsequent attempt whose
pre-jitter base `5 * 2 ** attempt` is strictly increasing in the attempt
index; in translate_oscal's `translate_batch`, transient errors are also
retried up to the 5 configured attempts but the (jitter-free) delay
`max(12, 2 ** attempt)` is only non-decreasing, not strictly increasing
(see the counterexample). -/
theorem g2r_transient_retry_backoff (out : Nat → BlobAttempt)
    (jitter : Nat → ℚ) (h : ∀ a, out a = .retryable) :
    (∀ a, g2rBaseDelay a < g2rBaseDelay (a + 1)) ∧
    process_single_blob_retry out jitter
        = (false, 5,
            [(5 : ℚ) + jitter 0, 10 + jitter 1, 20 + jitter 2,
              40 + jitter 3]) := by
  constructor
  · intro a
    have h2 : (2 : Nat) ^ a < 2 ^ (a + 1) :=
      Nat.pow_lt_pow_right (by norm_num) (Nat.lt_succ_self a)
    simp only [g2rBaseDelay, INITIAL_BACKOFF_BASE_SECONDS]
    omega
  · simp [process_single_blob_retry, G2R_MAX_RETRIES, processBlobGo, h,
      g2rBaseDelay, INITIAL_BACKOFF_BASE_SECONDS]

/-- Witness for the amended C7: the all-transient oracle with zero jitter
consumes all 5 attempts and sleeps 5, 10, 20, 40 seconds. -/
theorem g2r_transient_retry_backoff_witness :
    process_single_blob_retry (fun _ => .retryable) (fun _ => 0)
        = (false, 5, [(5 : ℚ), 10, 20, 40]) := by
  have h := g2r_transient_retry_backoff (fun _ => .retryable) (fun _ => 0)
    (fun _ => rfl)
  rw [h.2]
  norm_num

/-! ## Python dicts as association lists

Insertion-ordered association lists model Python dicts: `dictGet` is
`d.get(k)` / `k in d`, `dictSet` is `d[k] = v` (overwrite in place if the
key exists, else append). -/

/-- Python `d.get(k)`: first entry with the key. -/
def dictGet [DecidableEq κ] : List (κ × α) → κ → Option α
  | [], _ => none
  | (k', v) :: rest, k => if k' = k then some v else dictGet rest k

/-- Python `d[k] = v`: replace the entry in place if the key is present,
else append it. -/
def dictSet [DecidableEq κ] (m : List (κ × α)) (k : κ) (v : α) :
    List (κ × α) :=
  if m.any (fun kv => kv.1 = k) then
    m.map (fun kv => if kv.1 = k then (k, v) else kv)
  else m ++ [(k, v)]

theorem dictGet_append [DecidableEq κ] (xs ys : List (κ × α)) (k : κ) :
    dictGet (xs ++ ys) k
      = match dictGet xs k with
        | some v => some v
        | none => dictGet ys k := by
  induction xs with
  | nil => simp [dictGet]
  | cons a as ih =>
    by_cases h : a.1 = k <;> simp [dictGet, h, ih]

theorem dictGet_eq_none_of_not_mem [DecidableEq κ] (m : List (κ × α))
    (k : κ) (h : ¬ m.any (fun kv => kv.1 = k)) : dictGet m k = none := by
  induction m with
  | nil => rfl
  | cons a as ih =>
    simp only [List.any_cons, Bool.or_eq_true, decide_eq_true_eq] at h
    push_neg at h
    simp [dictGet, h.1, ih (by simpa using h.2)]

theorem dictGet_map_replace_self [DecidableEq κ] (m : List (κ × α))
    (k : κ) (v : α) (h : m.any (fun kv => kv.1 = k)) :
    dictGet (m.map (fun kv => if kv.1 = k then (k, v) else kv)) k
      = some v := by
  induction m with
  | nil => simp at h
  | cons a as ih =>
    obtain ⟨a1, a2⟩ := a
    by_cases ha : a1 = k
    · subst ha
      simp only [List.map_cons, if_true]
      simp [dictGet]
    · have h' : as.any (fun kv => kv.1 = k) := by
        simp only [List.any_cons, Bool.or_eq_true, decide_eq_true_eq] at h
        rcases h with h | h
        · exact absurd h ha
        · simpa using h
      simp only [List.map_cons, if_neg ha]
      simpa [dictGet, ha] using ih h'

theorem dictGet_map_replace_ne [DecidableEq κ] (m : List (κ × α))
    (k k' : κ) (v : α) (h : k' ≠ k) :
    dictGet (m.map (fun kv => if kv.1 = k then (k, v) else kv)) k'
      = dictGet m k' := by
  induction m with
  | nil => rfl
  | cons a as ih =>
    obtain ⟨a1, a2⟩ := a
    by_cases ha : a1 = k
    · subst ha
      have hk : ¬ a1 = k' := fun hh => h hh.symm
      simp only [List.map_cons, if_true]
      simp [dictGet, hk, ih]
    · simp only [List.map_cons, if_neg ha]
      by_cases ha' : a1 = k' <;> simp [dictGet, ha', ih]

theorem dictGet_dictSet_self [DecidableEq κ] (m : List (κ × α)) (k : κ)
    (v : α) : dictGet (dictSet m k v) k = some v := by
  unfold dictSet
  by_cases h : m.any (fun kv => kv.1 = k)
  · rw [if_pos h]
    exact dictGet_map_replace_self m k v h
  · rw [if_neg h, dictGet_append, dictGet_eq_none_of_not_mem m k h]
    simp [dictGet]

theorem dictGet_dictSet_ne [DecidableEq κ] (m : List (κ × α)) (k k' : κ)
    (v : α) (h : k' ≠ k) : dictGet (dictSet m k v) k' = dictGet m k' := by
  unfold dictSet
  by_cases hany : m.any (fun kv => kv.1 = k)
  · rw [if_pos hany]
    exact dictGet_map_replace_ne m k k' v h
  · rw [if_neg hany, dictGet_append]
    cases hx : dictGet m k'
    · simp [dictGet, Ne.symm h]
    · simp

/-! ## translate_batch response handling and restartability

`translate_batch` (src/translate_oscal/main.py lines 352-378), once the
response parses as JSON, updates each batch item from the response keyed
by the item's id string (ids are the integers `str(item['id'])`; the
`Nat` key models that string injectively) and returns `True` — a success
— regardless of whether the response covers all requested item keys. -/

/-- A deduplicated unique text with its accumulated translations
(`{id, original_text, translations}` of src/translate_oscal/main.py). -/
structure UniqueText where
  id : Nat
  original_text : String
  translations : List (String × String)
deriving DecidableEq, Repr

/-- The failure marker written by `translate_batch`
(src/translate_oscal/main.py lines 368 and 374). -/
def TRANSLATION_FAILED_GEMINI : String := "TRANSLATION FAILED (Gemini)"

/-- src/translate_oscal/main.py lines 363-368: write one language of one
item from the response's per-item translations `nt`: take the response
value unless it is empty or the literal `"TRANSLATION FAILED"`, in which
case write the failure marker. -/
def applyLang (nt : List (String × String)) (tr : List (String × String))
    (lang : String) : List (String × String) :=
  match dictGet nt lang with
  | some v =>
    if v ≠ "" ∧ v ≠ "TRANSLATION FAILED" then dictSet tr lang v
    else dictSet tr lang TRANSLATION_FAILED_GEMINI
  | none => dictSet tr lang TRANSLATION_FAILED_GEMINI

/-- src/translate_oscal/main.py lines 372-374: for an item absent from
the response, mark each not-yet-present language as failed. -/
def markMissingFailed (tr : List (String × String)) (lang : String) :
    List (String × String) :=
  if (dictGet tr lang).isSome then tr
  else dictSet tr lang TRANSLATION_FAILED_GEMINI

/-- src/translate_oscal/main.py lines 358-374: update one batch item
from the parsed response. -/
def update_item_from_response (targets : List String)
    (resp : List (Nat × List (String × String))) (item : UniqueText) :
    UniqueText :=
  match dictGet resp item.id with
  | some nt =>
    { item with translations := targets.foldl (applyLang nt) item.translations }
  | none =>
    { item with translations := targets.foldl markMissingFailed item.translations }

/-- The whole success path of `translate_batch` after `json.loads`
succeeds: every batch item is updated from the response and the call
reports success (`True`), with no check that the response's key set
matches the batch. -/
def process_batch_response (targets : List String)
    (resp : List (Nat × List (String × String))) (batch : List UniqueText) :
    List UniqueText × Bool :=
  (batch.map (update_item_from_response targets resp), true)

/-- Claim C2, evaluated at the failing input: a batch of 2 items whose
response carries a result for only 1 of the 2 requested item keys is
accepted as a success (`True` — so progress is saved and no retry
happens): the present item is marked completed from the short response
and the absent item is merely marked failed, instead of the whole
response being classified as malformed output and the batch retried. -/
theorem translate_batch_accepts_short_response :
    process_batch_response ["en"] [(0, [("en", "House")])]
        [⟨0, "Haus", []⟩, ⟨1, "Baum", []⟩]
      = ([⟨0, "Haus", [("en", "House")]⟩,
          ⟨1, "Baum", [("en", "TRANSLATION FAILED (Gemini)")]⟩], true) := rfl

/-- src/translate_oscal/main.py lines 104-110: the 14 target language
codes (`list(LANGUAGES.values())`). -/
def TARGET_LANGUAGE_CODES : List String :=
  ["en", "fr", "nl", "es", "it", "cs", "hu", "ps", "fa", "hi", "zh", "ja",
   "ru", "ko"]

/-- src/translate_oscal/main.py lines 510-511: seed a unique text's
translations from the loaded progress map, if its original text has an
entry there. -/
def seed_from_progress (progress : List (String × List (String × String)))
    (item : UniqueText) : UniqueText :=
  match dictGet progress item.original_text with
  | some tr => { item with translations := tr }
  | none => item

/-- src/translate_oscal/main.py lines 514-517: the target languages still
missing for an item — absent from its translations or recorded with the
failure marker. -/
def missing_languages (targets : List String) (item : UniqueText) :
    List String :=
  targets.filter (fun lang =>
    match dictGet item.translations lang with
    | none => true
    | some v => v == TRANSLATION_FAILED_GEMINI)

/-- src/translate_oscal/main.py lines 504-524: the unique texts that
still require translation in this run — those whose seeded translations
leave at least one target language missing. -/
def texts_to_translate_in_this_run (targets : List String)
    (progress : List (String × List (String × String)))
    (uniqueTexts : List UniqueText) : List UniqueText :=
  (uniqueTexts.map (seed_from_progress progress)).filter
    (fun item => !(missing_languages targets item).isEmpty)

/-- One unique text's fate in a run of `main`
(src/translate_oscal/main.py lines 497-557): a fully-satisfied item is
never dispatched and keeps its seeded translations; an incomplete item is
dispatched, and — per the comment at lines 548-555 — the prompt always
requests the full `TARGET_LANGUAGE_CODES`, so a successful response is
applied for every target language.  `resp` is the (successful) parsed
response covering the item's batch. -/
def run_item (targets : List String)
    (progress : List (String × List (String × String)))
    (resp : List (Nat × List (String × String))) (item : UniqueText) :
    UniqueText :=
  let s := seed_from_progress progress item
  if (missing_languages targets s).isEmpty then s
  else update_item_from_response targets resp s

/-- The value `translate_batch` records for a language present in the
response (the response value, or the failure marker when it is empty or
the literal `"TRANSLATION FAILED"`). -/
def expectedValue (nt : List (String × String)) (lang : String) : String :=
  match dictGet nt lang with
  | some v =>
    if v ≠ "" ∧ v ≠ "TRANSLATION FAILED" then v else TRANSLATION_FAILED_GEMINI
  | none => TRANSLATION_FAILED_GEMINI

theorem applyLang_eq_dictSet (nt tr : List (String × String))
    (lang : String) :
    applyLang nt tr lang = dictSet tr lang (expectedValue nt lang) := by
  cases h : dictGet nt lang <;>
    simp [applyLang, expectedValue, h, apply_ite (dictSet tr lang)]

/-- After folding `applyLang` over the requested language list, a
language that was requested holds exactly the response-derived value —
whatever it held before — and any other language is untouched. -/
theorem dictGet_foldl_applyLang (nt : List (String × String)) :
    ∀ (ts : List String) (tr : List (String × String)) (lang : String),
      dictGet (ts.foldl (applyLang nt) tr) lang
        = if lang ∈ ts then some (expectedValue nt lang)
          else dictGet tr lang := by
  intro ts
  induction ts with
  | nil => simp
  | cons t ts ih =>
    intro tr lang
    rw [List.foldl_cons, ih]
    by_cases hmem : lang ∈ ts
    · simp [hmem]
    · by_cases heq : lang = t
      · subst heq
        simp [hmem, applyLang_eq_dictSet, dictGet_dictSet_self]
      · simp [hmem, heq, applyLang_eq_dictSet, dictGet_dictSet_ne _ _ _ _ heq]

/-- Counterexample to claim C5 as stated: an almost-complete unique text
`Y` (English already satisfied from the progress store, 13 other
languages missing) is re-dispatched with the full target-language list,
and a successful response overwrites its already-satisfied English
translation: `"en"` is not among `Y`'s missing dimensions, yet after the
run its stored English result has changed from `"Hello"` to `"House"`. -/
theorem run_overwrites_satisfied_dimension :
    "en" ∉ missing_languages TARGET_LANGUAGE_CODES
        (seed_from_progress [("Haus", [("en", "Hello")])] ⟨0, "Haus", []⟩) ∧
    dictGet (run_item TARGET_LANGUAGE_CODES [("Haus", [("en", "Hello")])]
          [(0, [("en", "House")])] ⟨0, "Haus", []⟩).translations "en"
      = some "House" := by
  constructor
  · decide
  · rfl

/-- Claim C5, amended: a unique item whose seeded translations satisfy
every target language is excluded from dispatch entirely (its stored
results are unchanged at the end of the run, and every dispatched item
still misses at least one language); an incomplete item, however, is
re-dispatched with the full target-language list — not only its missing
dimensions — so a successful response overwrites even its
already-satisfied dimensions with the new response value. -/
theorem restartability_amended (targets : List String)
    (progress : List (String × List (String × String)))
    (resp : List (Nat × List (String × String))) (items : List UniqueText)
    (item : UniqueText) :
    ((missing_languages targets (seed_from_progress progress item)).isEmpty →
      run_item targets progress resp item = seed_from_progress progress item) ∧
    (∀ z ∈ texts_to_translate_in_this_run targets progress items,
      ¬ (missing_languages targets z).isEmpty) ∧
    (∀ (nt : List (String × String)) (lang : String) (v : String),
      dictGet resp (seed_from_progress progress item).id = some nt →
      dictGet nt lang = some v → v ≠ "" → v ≠ "TRANSLATION FAILED" →
      lang ∈ targets →
      ¬ (missing_languages targets (seed_from_progress progress item)).isEmpty →
      dictGet (run_item targets progress resp item).translations lang
        = some v) := by
  refine ⟨?_, ?_, ?_⟩
  · intro h
    simp [run_item, h]
  · intro z hz
    simp only [texts_to_translate_in_this_run, List.mem_filter,
      Bool.not_eq_true', Bool.not_eq_eq_eq_not] at hz
    simpa using hz.2
  · intro nt lang v hresp hv hne hfail hmem hmiss
    simp only [run_item, if_neg hmiss]
    simp only [update_item_from_response, hresp]
    rw [dictGet_foldl_applyLang, if_pos hmem]
    simp [expectedValue, hv, hne, hfail]

/-- Witness for the amended C5, at a concrete incomplete item: the
response value for English lands in the item's stored translations. -/
theorem restartability_amended_witness :
    dictGet (run_item TARGET_LANGUAGE_CODES [("Haus", [("en", "Hello")])]
          [(0, [("en", "House")])] ⟨0, "Haus", []⟩).translations "en"
      = some "House" :=
  (restartability_amended TARGET_LANGUAGE_CODES [("Haus", [("en", "Hello")])]
      [(0, [("en", "House")])] [] ⟨0, "Haus", []⟩).2.2
    [("en", "House")] "en" "House" rfl rfl (by decide) (by decide)
    (by decide) (by decide)

/-! ## Deduplication and rehydration

src/translate_oscal/main.py lines 481-495 deduplicate the extracted
occurrences by their text content (the first occurrence's index becomes
the unique item's id); lines 563-573 rehydrate every original occurrence
from a cache keyed by the original text. -/

/-- One entry of `full_translation_map`
(src/translate_oscal/main.py lines 218-222). -/
structure TextOccurrence where
  path : String
  original_text : String
  translations : List (String × String)
deriving DecidableEq, Repr

/-- src/translate_oscal/main.py lines 484-494: build the unique-texts
list, keyed by the text content itself, in first-occurrence order, with
the first occurrence's index as id. -/
def unique_texts_list (m : List TextOccurrence) : List UniqueText :=
  m.enum.foldl
    (fun acc p =>
      if acc.any (fun u => u.original_text = p.2.original_text) then acc
      else acc ++ [⟨p.1, p.2.original_text, []⟩])
    []

/-- src/translate_oscal/main.py line 567: `translation_cache`, keyed by
the original text. -/
def translation_cache (uts : List UniqueText) :
    List (String × List (String × String)) :=
  uts.map (fun u => (u.original_text, u.translations))

/-- src/translate_oscal/main.py lines 570-572: populate every original
occurrence from the cache. -/
def rehydrate (cache : List (String × List (String × String)))
    (m : List TextOccurrence) : List TextOccurrence :=
  m.map (fun item =>
    match dictGet cache item.original_text with
    | some tr => { item with translations := tr }
    | none => item)

/-- Claim C6: for three occurrences over exactly two distinct strings
(the first and third sharing `s`), deduplication yields exactly two
unique work items, keyed by the text content itself (ids 0 and 1, the
first-occurrence indices, not per-occurrence positions); and after
generation fills the unique items' translations (an arbitrary `f`),
rehydration populates all three occurrences, the two occurrences sharing
`s` receiving identical translations from the single shared result. -/
theorem dedup_rehydrate_scenario (p1 p2 p3 s t : String) (h : s ≠ t) :
    (unique_texts_list [⟨p1, s, []⟩, ⟨p2, t, []⟩, ⟨p3, s, []⟩]).length = 2 ∧
    unique_texts_list [⟨p1, s, []⟩, ⟨p2, t, []⟩, ⟨p3, s, []⟩]
        = [⟨0, s, []⟩, ⟨1, t, []⟩] ∧
    ∀ f : UniqueText → List (String × String),
      rehydrate
          (translation_cache
            ((unique_texts_list [⟨p1, s, []⟩, ⟨p2, t, []⟩, ⟨p3, s, []⟩]).map
              (fun u => { u with translations := f u })))
          [⟨p1, s, []⟩, ⟨p2, t, []⟩, ⟨p3, s, []⟩]
        = [⟨p1, s, f ⟨0, s, []⟩⟩, ⟨p2, t, f ⟨1, t, []⟩⟩,
           ⟨p3, s, f ⟨0, s, []⟩⟩] := by
  have he : unique_texts_list [⟨p1, s, []⟩, ⟨p2, t, []⟩, ⟨p3, s, []⟩]
      = [⟨0, s, []⟩, ⟨1, t, []⟩] := by
    simp [unique_texts_list, List.enum, h]
  refine ⟨by rw [he]; rfl, he, ?_⟩
  intro f
  rw [he]
  simp [rehydrate, translation_cache, dictGet, h]

/-- Witness for C6 at concrete strings. -/
theorem dedup_rehydrate_scenario_witness :
    (unique_texts_list
        [⟨"x", "a", []⟩, ⟨"y", "b", []⟩, ⟨"z", "a", []⟩]).length = 2 :=
  (dedup_rehydrate_scenario "x" "y" "z" "a" "b" (by decide)).1

/-! ## Process exit codes

src/translate_oscal/main.py exits nonzero via `sys.exit(1)` on missing
required environment variables (lines 97-100), on client-initialisation
failure (lines 152-158) and on source-load/parse failure (lines 468-471);
per-batch failures after exhausted retries only produce a warning (lines
559-560) and the run proceeds to save its partial results and exit 0.
src/add-practice exits nonzero from `config.validate_env_vars`
(config.py lines 31-36, `sys.exit(message)` — status 1) on missing
required variables, which runs when main.py line 10 imports config; with
the configuration complete, main.py line 19 then executes
`from gemini_utils import generate_practices_for_batch, ...`, but
gemini_utils.py defines no `generate_practices_for_batch` (only
`generate_practice_for_control`), so the import raises `ImportError` at
module load — before the `if __name__ == "__main__"` guard and its
exception handler — and the process exits 1.  Every add-practice run
therefore exits 1; `main` and its early `return` on a failed catalog
load (main.py lines 93-95) are unreachable. -/

/-- The startup conditions and per-batch outcomes of one
translate_oscal run. -/
structure TranslateOscalEnv where
  envVarsPresent : Bool
  initOk : Bool
  sourceLoadOk : Bool
  batchResults : List Bool
deriving DecidableEq, Repr

/-- Exit code of src/translate_oscal/main.py as a function of the run's
conditions. -/
def translate_oscal_exit_code (e : TranslateOscalEnv) : Nat :=
  if !e.envVarsPresent then 1
  else if !e.initOk then 1
  else if !e.sourceLoadOk then 1
  else 0

/-- The startup conditions and per-batch outcomes of one add-practice
run. -/
structure AddPracticeEnv where
  envVarsPresent : Bool
  catalogLoadOk : Bool
  batchResults : List Bool
deriving DecidableEq, Repr

/-- Exit code of src/add-practice/main.py as a function of the run's
conditions: with the configuration incomplete, `config.validate_env_vars`
exits 1 at import (config.py lines 31-36); with it complete, the
module-level `from gemini_utils import generate_practices_for_batch`
(main.py line 19) raises `ImportError` — gemini_utils.py defines no such
name — and the process exits 1 before `main` starts.  Every run exits 1,
whatever the catalog-load and per-batch outcomes. -/
def add_practice_exit_code (_ : AddPracticeEnv) : Nat := 1

/-- Counterexample to claim C8 as stated: an add-practice run whose
required configuration is complete and whose source catalog is loadable
still exits nonzero (1, from the failed module-level import of
`generate_practices_for_batch`), although neither a configuration value
is missing nor the source tree unfetchable — so the exit code is not 0
in that situation and nonzero exits are not confined to the claim's two
fatal cases. -/
theorem add_practice_exits_nonzero_despite_good_startup :
    add_practice_exit_code ⟨true, true, []⟩ = 1 := rfl

/-- Claim C8, amended: translate_oscal exits 0 exactly when its
environment variables, client initialisation and source load all
succeed — independent of any number of failed batches, which are only
summarised — and nonzero otherwise; add-practice exits 1 on every run:
on missing configuration via config validation at import, and otherwise
because main.py's module-level import of `generate_practices_for_batch`
(a name gemini_utils.py does not define) raises `ImportError` before
`main` starts, so its per-run exit-code policy is unobservable. -/
theorem exit_codes_amended (e : TranslateOscalEnv) (a : AddPracticeEnv) :
    (translate_oscal_exit_code e = 0 ↔
      e.envVarsPresent = true ∧ e.initOk = true ∧ e.sourceLoadOk = true) ∧
    (∀ bs, translate_oscal_exit_code { e with batchResults := bs }
      = translate_oscal_exit_code e) ∧
    add_practice_exit_code a = 1 := by
  obtain ⟨ev, io, so, br⟩ := e
  cases ev <;> cases io <;> cases so <;>
    simp [translate_oscal_exit_code, add_practice_exit_code]

/-- Witness for the amended C8: a fully-successful translate_oscal run
with one failed batch still exits 0; a fully-configured add-practice run
exits 1. -/
theorem exit_codes_amended_witness :
    translate_oscal_exit_code ⟨true, true, true, [false]⟩ = 0 ∧
      add_practice_exit_code ⟨true, true, []⟩ = 1 :=
  ⟨((exit_codes_amended ⟨true, true, true, [false]⟩ ⟨true, true, []⟩).1).mpr
      ⟨rfl, rfl, rfl⟩,
    (exit_codes_amended ⟨true, true, true, [false]⟩ ⟨true, true, []⟩).2.2⟩

/-! ## Concurrency gate

Every dispatch in the pipeline wraps its generation call in
`async with semaphore:` (src/translate_oscal/main.py line 314,
src/quality_control/main.py line 232, src/add-practice/main.py lines
109-111) or `with semaphore:` (src/oscal_components_from_grundschutz/
main.py lines 276-295); the context manager acquires one permit before
the call and releases it on every exit path, normal return or exception.
The interleaving of the task bodies is modelled as a small-step
transition system: a task acquires a permit (only when one is free) to
enter its call, and releasing is recorded together with the outcome —
success or failure releases alike. -/

/-- The phase of one dispatch task with respect to the semaphore. -/
inductive TaskPhase where
  | pending
  | inFlight
  | finished (ok : Bool)
deriving DecidableEq, Repr

/-- Semaphore permits still free, plus each task's phase. -/
structure GateState where
  permits : Nat
  tasks : List TaskPhase
deriving DecidableEq, Repr

/-- One scheduler step: any pending task may acquire a free permit and
start its generation call; any in-flight task may complete — with either
outcome — and always releases its permit. -/
inductive GateStep : GateState → GateState → Prop where
  | acquire (s : GateState) (i : Nat) (h : s.tasks.get? i = some .pending)
      (hp : 0 < s.permits) :
      GateStep s ⟨s.permits - 1, s.tasks.set i .inFlight⟩
  | release (s : GateState) (i : Nat) (ok : Bool)
      (h : s.tasks.get? i = some .inFlight) :
      GateStep s ⟨s.permits + 1, s.tasks.set i (.finished ok)⟩

/-- Number of generation calls currently in flight. -/
def inFlightCount (s : GateState) : Nat :=
  s.tasks.countP (fun p => p == TaskPhase.inFlight)

/-- The start of a run: the semaphore holds its full capacity of permits
(e.g. `asyncio.Semaphore(GEMINI_QPM_LIMIT)`), and all `n` work units are
pending. -/
def initialGate (cap n : Nat) : GateState :=
  ⟨cap, List.replicate n .pending⟩

/-- The gate invariant: free permits plus in-flight calls always equal
the configured capacity. -/
def gateInv (cap : Nat) (s : GateState) : Prop :=
  s.permits + inFlightCount s = cap

theorem countP_set (l : List TaskPhase) (p : TaskPhase → Bool) :
    ∀ (i : Nat) (a b : TaskPhase), l.get? i = some a →
      (l.set i b).countP p + (if p a then 1 else 0)
        = l.countP p + (if p b then 1 else 0) := by
  induction l with
  | nil =>
    intro i a b h
    simp at h
  | cons x xs ih =>
    intro i a b h
    cases i with
    | zero =>
      simp only [List.get?_cons_zero, Option.some_inj] at h
      subst h
      simp only [List.set_cons_zero, List.countP_cons]
      omega
    | succ n =>
      simp only [List.get?_cons_succ] at h
      simp only [List.set_cons_succ, List.countP_cons]
      have := ih n a b h
      omega

theorem gateStep_inv (cap : Nat) {s s' : GateState} (hstep : GateStep s s')
    (hinv : gateInv cap s) : gateInv cap s' := by
  cases hstep with
  | acquire i h hp =>
    have hc := countP_set s.tasks (fun p => p == TaskPhase.inFlight) i
      .pending .inFlight h
    simp only [gateInv, inFlightCount] at hinv ⊢
    simp at hc
    omega
  | release i ok h =>
    have hc := countP_set s.tasks (fun p => p == TaskPhase.inFlight) i
      .inFlight (.finished ok) h
    simp only [gateInv, inFlightCount] at hinv ⊢
    simp at hc
    omega

/-- Claim C9: in every state reachable from the start of a run,
regardless of the total number `n` of work units, the number of
generation calls in flight never exceeds the gate's configured capacity;
each acquisition consumes one permit and every completion — success or
failure — releases it. -/
theorem semaphore_bounds_in_flight (cap n : Nat) (s : GateState)
    (h : Relation.ReflTransGen GateStep (initialGate cap n) s) :
    inFlightCount s ≤ cap := by
  have hinv : gateInv cap s := by
    induction h with
    | refl =>
      simp only [gateInv, initialGate, inFlightCount]
      have : (List.replicate n TaskPhase.pending).countP
          (fun p => p == TaskPhase.inFlight) = 0 := by
        rw [List.countP_eq_zero]
        intro a ha
        rw [List.eq_of_mem_replicate ha]
        decide
      simp [this]
    | tail _ hstep ih => exact gateStep_inv cap hstep ih
  simp only [gateInv] at hinv
  omega

/-- Witness for C9: scenario C's configuration — 10 work items, capacity
3 — at the initial state. -/
theorem semaphore_bounds_in_flight_witness :
    inFlightCount (initialGate 3 10) ≤ 3 :=
  semaphore_bounds_in_flight 3 10 (initialGate 3 10)
    Relation.ReflTransGen.refl

/-! ## Extraction and reintegration over the JSON tree

src/translate_oscal/main.py walks the parsed JSON tree.
`extract_translatable_texts` (lines 208-232) records, for every
non-blank string stored under a `"prose"` or `"title"` key, a path
STRING built with `f"{path}.{key}"` / `f"{path}[{index}]"`.
`reintegrate_translations` (lines 405-433) re-parses each recorded path
with `path.replace(']', '').replace('[', '.').split('.')`, navigates a
deep copy with `current[int(key)] if key.isdigit() else current[key]`,
and assigns the translation (falling back to the original text when the
requested language is absent); any `KeyError`/`IndexError`/`TypeError`
skips that item, leaving the tree untouched for it.

JSON values are the usual inductive; Python dict access maps to
`dictGet`/`dictSet`, list indexing to `List.get?`/`List.set`, and an
exception during one item's reinsertion to `none` (the item is skipped).
Structural positions in the tree (the claim's "structural position") are
`PathStep` lists read by `getAtPos`. -/

/-- A parsed JSON value. -/
inductive Json where
  | null
  | bool (b : Bool)
  | num (n : Int)
  | str (s : String)
  | arr (elems : List Json)
  | obj (fields : List (String × Json))

/-- Python `s.strip()`: drop leading and trailing whitespace. -/
def pyStrip (s : String) : String :=
  String.mk
    (((s.data.dropWhile Char.isWhitespace).reverse.dropWhile
        Char.isWhitespace).reverse)

/-- The extraction condition of src/translate_oscal/main.py line 217:
`isinstance(value, str) and value.strip()`. -/
def isTranslatableValue : Json → Bool
  | .str s => !(pyStrip s).data.isEmpty
  | _ => false

def jsonText : Json → String
  | .str s => s
  | _ => ""

mutual
/-- src/translate_oscal/main.py lines 208-232: record every non-blank
string under a `"prose"`/`"title"` key with its path string; recurse into
every other value; list elements extend the path with `[index]`. -/
def extract_translatable_texts : Json → String → List TextOccurrence
  | .obj fields, path => extractFromFields fields path
  | .arr elems, path => extractFromElems elems path 0
  | _, _ => []

def extractFromFields : List (String × Json) → String → List TextOccurrence
  | [], _ => []
  | (k, v) :: rest, path =>
    (if (k = "prose" ∨ k = "title") ∧ isTranslatableValue v then
      [⟨(if path = "" then k else path ++ "." ++ k), jsonText v, []⟩]
    else extract_translatable_texts v (if path = "" then k else path ++ "." ++ k))
      ++ extractFromFields rest path

def extractFromElems : List Json → String → Nat → List TextOccurrence
  | [], _, _ => []
  | v :: rest, path, i =>
    extract_translatable_texts v (path ++ "[" ++ toString i ++ "]")
      ++ extractFromElems rest path (i + 1)
end

/-- Python `s.split('.')` on a character list: non-empty list of
segments, empty segments preserved. -/
def splitDotAux : List Char → List (List Char)
  | [] => [[]]
  | c :: rest =>
    let r := splitDotAux rest
    if c = '.' then [] :: r
    else
      match r with
      | [] => [[c]]
      | seg :: segs => (c :: seg) :: segs

/-- src/translate_oscal/main.py line 414:
`item['path'].replace(']', '').replace('[', '.').split('.')`. -/
def parse_path (p : String) : List String :=
  (splitDotAux
      ((p.data.filter (fun c => c ≠ ']')).map
        (fun c => if c = '[' then '.' else c))).map String.mk

/-- Python `key.isdigit()` (ASCII digits). -/
def isDigitKey (s : String) : Bool :=
  !s.data.isEmpty && s.data.all Char.isDigit

/-- Python `int(key)` on a digit string. -/
def digitsToNat (s : String) : Nat :=
  s.data.foldl (fun n c => n * 10 + (c.toNat - '0'.toNat)) 0

/-- One navigation step of src/translate_oscal/main.py line 418:
`current[int(key)] if key.isdigit() else current[key]`; a missing key, an
out-of-range index, an `int` index into a dict or any index into a
non-collection raises (`KeyError`/`IndexError`/`TypeError`) — `none`. -/
def jGet (j : Json) (key : String) : Option Json :=
  if isDigitKey key then
    match j with
    | .arr xs => xs[digitsToNat key]?
    | _ => none
  else
    match j with
    | .obj fields => dictGet fields key
    | _ => none

/-- The final assignment of src/translate_oscal/main.py lines 424-427:
`current[int(last)] = v` on a list (in-range only) or
`current[last] = v` on a dict (insert or overwrite). -/
def jSet (j : Json) (key : String) (v : Json) : Option Json :=
  if isDigitKey key then
    match j with
    | .arr xs =>
      if digitsToNat key < xs.length then
        some (.arr (xs.set (digitsToNat key) v))
      else none
    | _ => none
  else
    match j with
    | .obj fields => some (.obj (dictSet fields key v))
    | _ => none

/-- Navigate `path_keys[:-1]` and assign at the last key
(src/translate_oscal/main.py lines 416-427); `none` when any step
raises, in which case the caller leaves the tree unchanged. -/
def setAtParsedPath : Json → List String → Json → Option Json
  | _, [], _ => none
  | j, [last], v => jSet j last v
  | j, key :: rest, v =>
    match jGet j key with
    | none => none
    | some child =>
      match setAtParsedPath child rest v with
      | none => none
      | some child2 => jSet j key child2

/-- src/translate_oscal/main.py lines 405-433: `reintegrate_translations`
— write, at each recorded path, the item's translation for the target
language (or its original text when that language is absent), skipping
items whose reinsertion raises. -/
def reintegrate_translations (original : Json) (tmap : List TextOccurrence)
    (lang : String) : Json :=
  tmap.foldl
    (fun acc item =>
      match setAtParsedPath acc (parse_path item.path)
          (.str ((dictGet item.translations lang).getD item.original_text)) with
      | some acc2 => acc2
      | none => acc)
    original

/-- A structural position in a JSON tree: object keys and array
indices. -/
inductive PathStep where
  | key (k : String)
  | idx (i : Nat)
deriving DecidableEq, Repr

/-- Read the value at a structural position. -/
def getAtPos : Json → List PathStep → Option Json
  | j, [] => some j
  | .obj fields, .key k :: rest =>
    match dictGet fields k with
    | some v => getAtPos v rest
    | none => none
  | .arr xs, .idx i :: rest =>
    match xs[i]? with
    | some v => getAtPos v rest
    | none => none
  | _, _ => none

/-- The structural step a parsed path key addresses. -/
def stepOfKey (k : String) : PathStep :=
  if isDigitKey k then .idx (digitsToNat k) else .key k

/-- The structural position a parsed path addresses. -/
def stepsOfKeys (keys : List String) : List PathStep :=
  keys.map stepOfKey

/-- The tree of the counterexample to claim C10: the key `"a.b"`
contains a dot, so its recorded path string `"a.b.prose"` re-parses to a
different structural position. -/
def aliasTree : Json :=
  .obj [("a.b", .obj [("prose", .str "x")]),
        ("a", .obj [("b", .obj [("c", .num 1)])])]

/-- Counterexample to claim C10 as stated: on `aliasTree`, extraction
records exactly one occurrence, the string `"x"` found at structural
position `["a.b", "prose"]`, with path string `"a.b.prose"`.
Reintegration of its English translation `"X"` leaves that recorded
position unchanged and instead writes `"X"` at `["a", "b", "prose"]` — a
position where the original tree had no value at all and where no
occurrence was recorded — because the path string re-parses to
`["a", "b", "prose"]`.  The result thus differs from the original at a
structural position other than the recorded extraction positions. -/
theorem reintegrate_changes_unrecorded_position :
    extract_translatable_texts aliasTree "" = [⟨"a.b.prose", "x", []⟩] ∧
    getAtPos aliasTree [.key "a.b", .key "prose"] = some (.str "x") ∧
    getAtPos (reintegrate_translations aliasTree
        [⟨"a.b.prose", "x", [("en", "X")]⟩] "en")
        [.key "a.b", .key "prose"] = some (.str "x") ∧
    getAtPos aliasTree [.key "a", .key "b", .key "prose"] = none ∧
    getAtPos (reintegrate_translations aliasTree
        [⟨"a.b.prose", "x", [("en", "X")]⟩] "en")
        [.key "a", .key "b", .key "prose"] = some (.str "X") ∧
    ([PathStep.key "a", .key "b", .key "prose"]
      ≠ [PathStep.key "a.b", .key "prose"]) := by
  refine ⟨?_, rfl, ?_, rfl, ?_, by decide⟩
  · simp [aliasTree, extract_translatable_texts, extractFromFields,
      extractFromElems, isTranslatableValue, jsonText, pyStrip]
  · simp [reintegrate_translations, aliasTree, parse_path, splitDotAux,
      setAtParsedPath, jGet, jSet, dictGet, dictSet, isDigitKey,
      digitsToNat, getAtPos]
  · simp [reintegrate_translations, aliasTree, parse_path, splitDotAux,
      setAtParsedPath, jGet, jSet, dictGet, dictSet, isDigitKey,
      digitsToNat, getAtPos]

/-! ### Well-formed JSON trees and the frame property of reintegration -/

/-- Keys of an association list are pairwise distinct (always true for a
dict produced by `json.loads`). -/
def keysNodup [DecidableEq κ] : List (κ × α) → Bool
  | [] => true
  | (k, _) :: rest => !(rest.any (fun kv => kv.1 = k)) && keysNodup rest

mutual
/-- A tree as produced by `json.loads`: every object has pairwise
distinct keys. -/
def jsonWF : Json → Bool
  | .obj fields => keysNodup fields && fieldsWF fields
  | .arr xs => elemsWF xs
  | _ => true

def fieldsWF : List (String × Json) → Bool
  | [] => true
  | (_, v) :: rest => jsonWF v && fieldsWF rest

def elemsWF : List Json → Bool
  | [] => true
  | v :: rest => jsonWF v && elemsWF rest
end

theorem list_set_same : ∀ (xs : List γ) (n : Nat) (v : γ),
    xs[n]? = some v → xs.set n v = xs := by
  intro xs
  induction xs with
  | nil =>
    intro n v h
    simp at h
  | cons x xs ih =>
    intro n v h
    cases n with
    | zero =>
      simp only [List.getElem?_cons_zero, Option.some_inj] at h
      subst h
      rfl
    | succ m =>
      simp only [List.getElem?_cons_succ] at h
      simp [List.set_cons_succ, ih m v h]

theorem list_get?_mem : ∀ (xs : List γ) (n : Nat) (v : γ),
    xs[n]? = some v → v ∈ xs := by
  intro xs
  induction xs with
  | nil =>
    intro n v h
    simp at h
  | cons x xs ih =>
    intro n v h
    cases n with
    | zero =>
      simp only [List.getElem?_cons_zero, Option.some_inj] at h
      exact h ▸ List.mem_cons_self x xs
    | succ m =>
      simp only [List.getElem?_cons_succ] at h
      exact List.mem_cons_of_mem x (ih m v h)

theorem list_get?_lt : ∀ (xs : List γ) (n : Nat) (v : γ),
    xs[n]? = some v → n < xs.length := by
  intro xs
  induction xs with
  | nil =>
    intro n v h
    simp at h
  | cons x xs ih =>
    intro n v h
    cases n with
    | zero => simp
    | succ m =>
      simp only [List.getElem?_cons_succ] at h
      simpa using ih m v h

theorem dictGet_any [DecidableEq κ] : ∀ (m : List (κ × α)) (k : κ) (v : α),
    dictGet m k = some v → m.any (fun kv => kv.1 = k) := by
  intro m
  induction m with
  | nil =>
    intro k v h
    simp [dictGet] at h
  | cons a as ih =>
    intro k v h
    obtain ⟨a1, a2⟩ := a
    by_cases h1 : a1 = k
    · simp [h1]
    · simp only [dictGet, if_neg h1] at h
      simp [List.any_cons, ih k v h]

theorem dictGet_mem [DecidableEq κ] : ∀ (m : List (κ × α)) (k : κ) (v : α),
    dictGet m k = some v → (k, v) ∈ m := by
  intro m
  induction m with
  | nil =>
    intro k v h
    simp [dictGet] at h
  | cons a as ih =>
    intro k v h
    obtain ⟨a1, a2⟩ := a
    by_cases h1 : a1 = k
    · subst h1
      simp only [dictGet, eq_self_iff_true, if_true, Option.some_inj] at h
      subst h
      exact List.mem_cons_self _ _
    · simp only [dictGet, if_neg h1] at h
      exact List.mem_cons_of_mem _ (ih k v h)

theorem map_replace_id_of_not_any [DecidableEq κ] (k : κ) (v : α) :
    ∀ m : List (κ × α), ¬ m.any (fun kv => kv.1 = k) →
      m.map (fun kv => if kv.1 = k then (k, v) else kv) = m := by
  intro m
  induction m with
  | nil =>
    intro _
    rfl
  | cons a as ih =>
    intro h
    simp only [List.any_cons, Bool.or_eq_true, decide_eq_true_eq] at h
    push_neg at h
    simp only [List.map_cons, if_neg h.1, ih (by simpa using h.2)]

theorem dictSet_same [DecidableEq κ] : ∀ (m : List (κ × α)) (k : κ) (v : α),
    keysNodup m → dictGet m k = some v → dictSet m k v = m := by
  have hmap : ∀ (m : List (κ × α)) (k : κ) (v : α),
      keysNodup m → dictGet m k = some v →
        m.map (fun kv => if kv.1 = k then (k, v) else kv) = m := by
    intro m
    induction m with
    | nil =>
      intro k v _ hget
      rfl
    | cons a as ih =>
      intro k v hnd hget
      obtain ⟨a1, a2⟩ := a
      simp only [keysNodup, Bool.and_eq_true, Bool.not_eq_true'] at hnd
      by_cases h1 : a1 = k
      · subst h1
        simp only [dictGet, eq_self_iff_true, if_true, Option.some_inj] at hget
        subst hget
        simp only [List.map_cons, eq_self_iff_true, if_true]
        rw [map_replace_id_of_not_any a1 a2 as (by simp [hnd.1])]
      · simp only [dictGet, if_neg h1] at hget
        simp only [List.map_cons, if_neg h1,
          ih k v (by simpa using hnd.2) hget]
  intro m k v hnd hget
  unfold dictSet
  rw [if_pos (dictGet_any m k v hget)]
  exact hmap m k v hnd hget

theorem fieldsWF_mem : ∀ (fields : List (String × Json)) (k : String)
    (v : Json), fieldsWF fields → (k, v) ∈ fields → jsonWF v := by
  intro fields
  induction fields with
  | nil =>
    intro k v _ hmem
    simp at hmem
  | cons a as ih =>
    intro k v hwf hmem
    obtain ⟨a1, a2⟩ := a
    simp only [fieldsWF, Bool.and_eq_true] at hwf
    rcases List.mem_cons.mp hmem with h | h
    · injection h with h1 h2
      exact h2 ▸ hwf.1
    · exact ih k v hwf.2 h

theorem elemsWF_mem : ∀ (xs : List Json) (v : Json),
    elemsWF xs → v ∈ xs → jsonWF v := by
  intro xs
  induction xs with
  | nil =>
    intro v _ hmem
    simp at hmem
  | cons x xs ih =>
    intro v hwf hmem
    simp only [elemsWF, Bool.and_eq_true] at hwf
    rcases List.mem_cons.mp hmem with h | h
    · exact h ▸ hwf.1
    · exact ih v hwf.2 h

theorem jGet_wf (j : Json) (k : String) (c : Json) (hwf : jsonWF j)
    (h : jGet j k = some c) : jsonWF c := by
  by_cases hd : isDigitKey k
  · cases j with
    | arr xs =>
      simp only [jGet, if_pos hd] at h
      have hwfx : elemsWF xs := by simpa [jsonWF] using hwf
      exact elemsWF_mem xs c hwfx (list_get?_mem xs _ c h)
    | null => simp [jGet, hd] at h
    | bool b => simp [jGet, hd] at h
    | num n => simp [jGet, hd] at h
    | str s => simp [jGet, hd] at h
    | obj fields => simp [jGet, hd] at h
  · cases j with
    | obj fields =>
      simp only [jGet, if_neg hd] at h
      have hwfx : keysNodup fields ∧ fieldsWF fields := by
        simpa [jsonWF] using hwf
      exact fieldsWF_mem fields k c hwfx.2 (dictGet_mem fields k c h)
    | null => simp [jGet, hd] at h
    | bool b => simp [jGet, hd] at h
    | num n => simp [jGet, hd] at h
    | str s => simp [jGet, hd] at h
    | arr xs => simp [jGet, hd] at h

theorem jSet_same (j : Json) (k : String) (v : Json) (hwf : jsonWF j)
    (h : jGet j k = some v) : jSet j k v = some j := by
  by_cases hd : isDigitKey k
  · cases j with
    | arr xs =>
      simp only [jGet, if_pos hd] at h
      have hlt : digitsToNat k < xs.length := list_get?_lt xs _ v h
      simp [jSet, if_pos hd, hlt, list_set_same xs _ v h]
    | null => simp [jGet, hd] at h
    | bool b => simp [jGet, hd] at h
    | num n => simp [jGet, hd] at h
    | str s => simp [jGet, hd] at h
    | obj fields => simp [jGet, hd] at h
  · cases j with
    | obj fields =>
      simp only [jGet, if_neg hd] at h
      have hwfx : keysNodup fields ∧ fieldsWF fields := by
        simpa [jsonWF] using hwf
      simp [jSet, if_neg hd, dictSet_same fields k v hwfx.1 h]
    | null => simp [jGet, hd] at h
    | bool b => simp [jGet, hd] at h
    | num n => simp [jGet, hd] at h
    | str s => simp [jGet, hd] at h
    | arr xs => simp [jGet, hd] at h

theorem getAtPos_stepOfKey_cons (j : Json) (k : String)
    (ps : List PathStep) :
    getAtPos j (stepOfKey k :: ps)
      = (jGet j k).bind (fun c => getAtPos c ps) := by
  by_cases hd : isDigitKey k
  · cases j with
    | arr xs =>
      simp only [stepOfKey, jGet, if_pos hd]
      cases hx : xs[digitsToNat k]? with
      | none => simp [getAtPos, hx]
      | some c => simp [getAtPos, hx]
    | null => simp [getAtPos, jGet, stepOfKey, if_pos hd]
    | bool b => simp [getAtPos, jGet, stepOfKey, if_pos hd]
    | num n => simp [getAtPos, jGet, stepOfKey, if_pos hd]
    | str s => simp [getAtPos, jGet, stepOfKey, if_pos hd]
    | obj fields => simp [getAtPos, jGet, stepOfKey, if_pos hd]
  · cases j with
    | obj fields =>
      simp only [stepOfKey, jGet, if_neg hd]
      cases hx : dictGet fields k with
      | none => simp [getAtPos, hx]
      | some c => simp [getAtPos, hx]
    | null => simp [getAtPos, jGet, stepOfKey, if_neg hd]
    | bool b => simp [getAtPos, jGet, stepOfKey, if_neg hd]
    | num n => simp [getAtPos, jGet, stepOfKey, if_neg hd]
    | str s => simp [getAtPos, jGet, stepOfKey, if_neg hd]
    | arr xs => simp [getAtPos, jGet, stepOfKey, if_neg hd]

theorem getAtPos_singleton (j : Json) (k : String) :
    getAtPos j [stepOfKey k] = jGet j k := by
  rw [getAtPos_stepOfKey_cons]
  cases jGet j k <;> simp [getAtPos]

theorem getAtPos_jSet_self (j j' : Json) (k : String) (v : Json)
    (h : jSet j k v = some j') (ps : List PathStep) :
    getAtPos j' (stepOfKey k :: ps) = getAtPos v ps := by
  by_cases hd : isDigitKey k
  · cases j with
    | arr xs =>
      simp only [jSet, if_pos hd] at h
      by_cases hlt : digitsToNat k < xs.length
      · rw [if_pos hlt] at h
        simp only [Option.some_inj] at h
        subst h
        simp [getAtPos, stepOfKey, if_pos hd, List.getElem?_set_self hlt]
      · rw [if_neg hlt] at h
        exact absurd h (by simp)
    | null => simp [jSet, if_pos hd] at h
    | bool b => simp [jSet, if_pos hd] at h
    | num n => simp [jSet, if_pos hd] at h
    | str s => simp [jSet, if_pos hd] at h
    | obj fields => simp [jSet, if_pos hd] at h
  · cases j with
    | obj fields =>
      simp only [jSet, if_neg hd, Option.some_inj] at h
      subst h
      simp [getAtPos, stepOfKey, if_neg hd, dictGet_dictSet_self]
    | null => simp [jSet, if_neg hd] at h
    | bool b => simp [jSet, if_neg hd] at h
    | num n => simp [jSet, if_neg hd] at h
    | str s => simp [jSet, if_neg hd] at h
    | arr xs => simp [jSet, if_neg hd] at h

theorem getAtPos_jSet_ne (j j' : Json) (k : String) (v : Json)
    (h : jSet j k v = some j') (q : PathStep) (ps : List PathStep)
    (hq : q ≠ stepOfKey k) :
    getAtPos j' (q :: ps) = getAtPos j (q :: ps) := by
  by_cases hd : isDigitKey k
  · cases j with
    | arr xs =>
      simp only [jSet, if_pos hd] at h
      simp only [stepOfKey, if_pos hd] at hq
      by_cases hlt : digitsToNat k < xs.length
      · rw [if_pos hlt] at h
        simp only [Option.some_inj] at h
        subst h
        cases q with
        | key k2 => simp [getAtPos]
        | idx m =>
          have hm : digitsToNat k ≠ m := fun hh => hq (by rw [hh])
          simp only [getAtPos, List.getElem?_set_ne hm]
      · rw [if_neg hlt] at h
        exact absurd h (by simp)
    | null => simp [jSet, if_pos hd] at h
    | bool b => simp [jSet, if_pos hd] at h
    | num n => simp [jSet, if_pos hd] at h
    | str s => simp [jSet, if_pos hd] at h
    | obj fields => simp [jSet, if_pos hd] at h
  · cases j with
    | obj fields =>
      simp only [jSet, if_neg hd, Option.some_inj] at h
      simp only [stepOfKey, if_neg hd] at hq
      subst h
      cases q with
      | idx m => simp [getAtPos]
      | key k2 =>
        have hk : k2 ≠ k := fun hh => hq (by rw [hh])
        simp only [getAtPos, dictGet_dictSet_ne fields k k2 v hk]
    | null => simp [jSet, if_neg hd] at h
    | bool b => simp [jSet, if_neg hd] at h
    | num n => simp [jSet, if_neg hd] at h
    | str s => simp [jSet, if_neg hd] at h
    | arr xs => simp [jSet, if_neg hd] at h

/-- Frame property of one reinsertion: a successful
`setAtParsedPath j keys v` changes nothing at any structural position
that is neither an ancestor nor a descendant-or-equal of the position
addressed by the parsed keys. -/
theorem setAtParsedPath_frame :
    ∀ (keys : List String) (j j' v : Json),
      setAtParsedPath j keys v = some j' →
      ∀ p : List PathStep,
        ¬ (stepsOfKeys keys <+: p) → ¬ (p <+: stepsOfKeys keys) →
        getAtPos j' p = getAtPos j p := by
  intro keys
  induction keys with
  | nil =>
    intro j j' v h
    simp [setAtParsedPath] at h
  | cons key rest ih =>
    intro j j' v h p hp1 hp2
    cases rest with
    | nil =>
      simp only [setAtParsedPath] at h
      cases p with
      | nil => exact absurd List.nil_prefix hp2
      | cons q ps =>
        by_cases hq : q = stepOfKey key
        · subst hq
          exact absurd ⟨ps, rfl⟩ hp1
        · exact getAtPos_jSet_ne j j' key v h q ps hq
    | cons k2 rest2 =>
      simp only [setAtParsedPath] at h
      cases hget : jGet j key with
      | none =>
        rw [hget] at h
        exact absurd h (by simp)
      | some child =>
        rw [hget] at h
        have h2 : (match setAtParsedPath child (k2 :: rest2) v with
            | none => none
            | some child2 => jSet j key child2) = some j' := h
        clear h
        cases hset : setAtParsedPath child (k2 :: rest2) v with
        | none =>
          rw [hset] at h2
          exact absurd h2 (by simp)
        | some child2 =>
          rw [hset] at h2
          have h : jSet j key child2 = some j' := h2
          cases p with
          | nil => exact absurd List.nil_prefix hp2
          | cons q ps =>
            by_cases hq : q = stepOfKey key
            · subst hq
              rw [getAtPos_jSet_self j j' key child2 h ps,
                getAtPos_stepOfKey_cons, hget, Option.some_bind]
              refine ih child child2 v hset ps ?_ ?_
              · intro hpre
                apply hp1
                simp only [stepsOfKeys, List.map_cons] at hpre ⊢
                exact List.cons_prefix_cons.mpr ⟨rfl, hpre⟩
              · intro hpre
                apply hp2
                simp only [stepsOfKeys, List.map_cons] at hpre ⊢
                exact List.cons_prefix_cons.mpr ⟨rfl, hpre⟩
            · exact getAtPos_jSet_ne j j' key child2 h q ps hq

/-- Writing back the value already present at a parsed position of a
well-formed tree succeeds and returns the very same tree. -/
theorem setAtParsedPath_unchanged :
    ∀ (keys : List String) (j v : Json), keys ≠ [] → jsonWF j →
      getAtPos j (stepsOfKeys keys) = some v →
      setAtParsedPath j keys v = some j := by
  intro keys
  induction keys with
  | nil =>
    intro j v h
    exact absurd rfl h
  | cons key rest ih =>
    intro j v _ hwf hget
    cases rest with
    | nil =>
      simp only [stepsOfKeys, List.map_cons, List.map_nil] at hget
      rw [getAtPos_singleton] at hget
      simp only [setAtParsedPath]
      exact jSet_same j key v hwf hget
    | cons k2 rest2 =>
      simp only [stepsOfKeys, List.map_cons] at hget
      rw [getAtPos_stepOfKey_cons] at hget
      cases hj : jGet j key with
      | none =>
        rw [hj] at hget
        exact absurd hget (by simp)
      | some child =>
        rw [hj, Option.some_bind] at hget
        have hcwf := jGet_wf j key child hwf hj
        have hrec := ih child v (by simp) hcwf
          (by simpa [stepsOfKeys] using hget)
        simp only [setAtParsedPath, hj, hrec]
        exact jSet_same j key child hwf hj

theorem splitDotAux_ne_nil : ∀ cs : List Char, splitDotAux cs ≠ [] := by
  intro cs
  induction cs with
  | nil => simp [splitDotAux]
  | cons c rest ih =>
    simp only [splitDotAux]
    by_cases h : c = '.'
    · simp [h]
    · simp only [if_neg h]
      cases hr : splitDotAux rest <;> simp

theorem parse_path_ne_nil (p : String) : parse_path p ≠ [] := by
  simp only [parse_path]
  intro h
  exact splitDotAux_ne_nil _ (List.map_eq_nil_iff.mp h)

theorem reintegrate_cons (tree : Json) (item : TextOccurrence)
    (rest : List TextOccurrence) (lang : String) :
    reintegrate_translations tree (item :: rest) lang
      = reintegrate_translations
          (match setAtParsedPath tree (parse_path item.path)
              (.str ((dictGet item.translations lang).getD
                item.original_text)) with
           | some acc2 => acc2
           | none => tree)
          rest lang := rfl

/-- Claim C10, amended: `reintegrate_translations` returns a tree that
agrees with the original at every structural position that is neither an
ancestor nor a descendant-or-equal of a position addressed by parsing
one of the recorded path strings (these coincide with the positions
where extraction found the texts only when object keys contain no `.`,
`[`, `]` and are not digit-only — otherwise the parsed path can address
a different node, as the counterexample shows); and when every item's
translations lack the requested language, the recorded original text is
written back, so a well-formed tree that still holds each item's
original text at its parsed position is returned entirely unchanged.
(The input tree value is never mutated: the Python code writes into a
deep copy, modelled here by the function being pure.) -/
theorem reintegrate_translations_frame (tree : Json)
    (tmap : List TextOccurrence) (lang : String) :
    (∀ p : List PathStep,
      (∀ item ∈ tmap, ¬ (stepsOfKeys (parse_path item.path) <+: p) ∧
        ¬ (p <+: stepsOfKeys (parse_path item.path))) →
      getAtPos (reintegrate_translations tree tmap lang) p
        = getAtPos tree p) ∧
    (jsonWF tree →
      (∀ item ∈ tmap, dictGet item.translations lang = none ∧
        getAtPos tree (stepsOfKeys (parse_path item.path))
          = some (.str item.original_text)) →
      reintegrate_translations tree tmap lang = tree) := by
  constructor
  · induction tmap generalizing tree with
    | nil =>
      intro p _
      rfl
    | cons item rest ih =>
      intro p hp
      rw [reintegrate_cons]
      have hstep : ∀ acc : Json,
          (match setAtParsedPath tree (parse_path item.path)
              (.str ((dictGet item.translations lang).getD
                item.original_text)) with
           | some acc2 => acc2
           | none => tree) = acc →
          getAtPos acc p = getAtPos tree p := by
        intro acc hacc
        cases hset : setAtParsedPath tree (parse_path item.path)
            (.str ((dictGet item.translations lang).getD
              item.original_text)) with
        | none =>
          rw [hset] at hacc
          rw [← hacc]
        | some acc2 =>
          rw [hset] at hacc
          rw [← hacc]
          exact setAtParsedPath_frame (parse_path item.path) tree acc2 _
            hset p (hp item (List.mem_cons_self _ _)).1
            (hp item (List.mem_cons_self _ _)).2
      rw [ih _ p (fun it hit => hp it (List.mem_cons_of_mem _ hit))]
      exact hstep _ rfl
  · intro hwf hitems
    induction tmap with
    | nil => rfl
    | cons item rest ih =>
      rw [reintegrate_cons]
      have h1 := hitems item (List.mem_cons_self _ _)
      rw [h1.1]
      have hset := setAtParsedPath_unchanged (parse_path item.path) tree
        (.str item.original_text) (parse_path_ne_nil item.path) hwf h1.2
      simp only [Option.getD]
      rw [hset]
      exact ih (fun it hit => hitems it (List.mem_cons_of_mem _ hit))


/-- Witness for the amended C10: a one-field well-formed tree whose
single recorded item lacks the requested language is returned unchanged
by reintegration. -/
theorem reintegrate_translations_frame_witness :
    reintegrate_translations (.obj [("prose", .str "hi")])
        [⟨"prose", "hi", []⟩] "en" = .obj [("prose", .str "hi")] :=
  (reintegrate_translations_frame (.obj [("prose", .str "hi")])
      [⟨"prose", "hi", []⟩] "en").2
    (by simp [jsonWF, keysNodup, fieldsWF, elemsWF])
    (by
      intro item hmem
      simp only [List.mem_singleton] at hmem
      subst hmem
      exact ⟨rfl, rfl⟩)

end BsiOscal
